import Mathlib

/-!
Verification of the chess engine core (`chess_engine.py`): the material
evaluator, the fail-soft alpha-beta `minimax`, and the root move selector
`find_best_move`.  The chess rules library (`python-chess`) is an external
collaborator and is modelled by the abstract interface `Rules`; the engine
code itself is translated function by function.

The mutable `chess.Board` shared between `find_best_move` and `minimax`
(the code pushes and pops moves on a single object) is modelled by
`BoardSt`, a current position together with the stack of previous
positions; `pushSt`/`popSt` model `board.push`/`board.pop`.  `minimax` and
`find_best_move` thread this state explicitly and return it, so the
"net-zero mutation" discipline of the source becomes a provable statement
about the returned state.  `minimaxVal` is the value-level reading of the
same recursion, and `minimaxFull` / `find_best_move_full` are the
unpruned reference searches described by the spec (no alpha-beta
cutoffs), used for the refinement claims.
-/

namespace ChessEngine

/-- Piece kinds that occur in `PIECE_VALUES` (the king is excluded by the
source). -/
inductive Piece
  | pawn
  | knight
  | bishop
  | rook
  | queen
deriving DecidableEq, Repr

/-- The two sides, `chess.WHITE` and `chess.BLACK`. -/
inductive Color
  | white
  | black
deriving DecidableEq, Repr

/-- PIECE_VALUES from the source: pawn 1, knight 3, bishop 3, rook 5,
queen 9. -/
def PIECE_VALUES : Piece → Int
  | .pawn => 1
  | .knight => 3
  | .bishop => 3
  | .rook => 5
  | .queen => 9

/-- Iteration order of `PIECE_VALUES.items()` (dict insertion order). -/
def pieceKinds : List Piece := [.pawn, .knight, .bishop, .rook, .queen]

/-- INF_SCORE = 1000000, the mate/stalemate sentinel. -/
def INF_SCORE : Int := 1000000

/-- MAX_DEPTH = 3, the default search depth. -/
def MAX_DEPTH : Nat := 3

/-- Result of `board.outcome()`: a record carrying the winner
(`some white`, `some black`, or `none` for a draw). -/
structure Outcome where
  winner : Option Color
deriving DecidableEq, Repr

/-- The external rules engine interface (python-chess) consumed by the
core, per spec section 6: legal move enumeration, move application,
terminal queries, piece counts and side to move.  `pieces_count b pt c`
models `len(board.pieces(pt, c))`. -/
structure Rules (B M : Type) where
  legal_moves : B → List M
  push : B → M → B
  is_game_over : B → Bool
  outcome : B → Option Outcome
  is_checkmate : B → Bool
  pieces_count : B → Piece → Color → Nat
  turn : B → Color

variable {B M : Type}

/-- Translation of `ChessEngine.evaluate_material` (lines 40-58).  The
method takes a `board` argument but reads `self.board.pieces(...)`; both
the engine's own board (`self_board`) and the argument (`board`) are
therefore parameters, and the result is computed from `self_board`,
exactly as the source does. -/
def evaluate_material (R : Rules B M) (self_board : B) (board : B) : Int :=
  pieceKinds.foldl
    (fun score piece_type =>
      score + (R.pieces_count self_board piece_type Color.white : Int) * PIECE_VALUES piece_type
            - (R.pieces_count self_board piece_type Color.black : Int) * PIECE_VALUES piece_type)
    0

/-- Modelled from the spec (section 4.1): the material balance of the
evaluator's ARGUMENT, "for each piece kind in the value table, let `w` =
count of that kind owned by the maximizing side, `b` = count owned by the
minimizing side; accumulate `Score += (w - b) * value`".  Used to compare
the code's `evaluate_material` with its specified contract. -/
def material_of (R : Rules B M) (board : B) : Int :=
  pieceKinds.foldl
    (fun score piece_type =>
      score + (R.pieces_count board piece_type Color.white : Int) * PIECE_VALUES piece_type
            - (R.pieces_count board piece_type Color.black : Int) * PIECE_VALUES piece_type)
    0

/-- The mutable board object: current position plus the stack of previous
positions maintained by `board.push` / `board.pop`. -/
structure BoardSt (B : Type) where
  pos : B
  hist : List B
deriving DecidableEq, Repr

/-- `board.push(move)`: apply the move and remember the previous
position. -/
def pushSt (R : Rules B M) (s : BoardSt B) (move : M) : BoardSt B :=
  ⟨R.push s.pos move, s.pos :: s.hist⟩

/-- `board.pop()`: restore the most recent previous position (LIFO). -/
def popSt (s : BoardSt B) : BoardSt B :=
  match s with
  | ⟨p, []⟩ => ⟨p, []⟩
  | ⟨_, q :: rest⟩ => ⟨q, rest⟩

/-- Terminal scoring of `minimax` (lines 79-99): `outcome() is None`
gives 0; checkmate gives `INF_SCORE + depth` for a White win and
`-INF_SCORE - depth` for a Black win; everything else (stalemate and
other draws) gives 0. -/
def terminal_score (R : Rules B M) (b : B) (depth : Nat) : Int :=
  match R.outcome b with
  | none => 0
  | some result =>
    if R.is_checkmate b then
      match result.winner with
      | some Color.white => INF_SCORE + (depth : Int)
      | some Color.black => -INF_SCORE - (depth : Int)
      | none => 0
    else 0

/-- The maximizing-player loop of `minimax` (lines 103-125), threading the
mutable board: push, recurse, pop (in that order, before the cutoff
test), update `max_eval`, raise `alpha`, and return early when
`alpha >= beta`. -/
def minimaxLoopMax (R : Rules B M) (rec : BoardSt B → Int → Int × BoardSt B) (beta : Int) :
    List M → BoardSt B → Int → Int → Int × BoardSt B
  | [], s, max_eval, _ => (max_eval, s)
  | move :: ms, s, max_eval, alpha =>
    let r := rec (pushSt R s move) alpha
    let s2 := popSt r.2
    let me := max max_eval r.1
    let alpha2 := max alpha me
    if beta ≤ alpha2 then (me, s2)
    else minimaxLoopMax R rec beta ms s2 me alpha2

/-- The minimizing-player loop of `minimax` (lines 128-143). -/
def minimaxLoopMin (R : Rules B M) (rec : BoardSt B → Int → Int × BoardSt B) (alpha : Int) :
    List M → BoardSt B → Int → Int → Int × BoardSt B
  | [], s, min_eval, _ => (min_eval, s)
  | move :: ms, s, min_eval, beta =>
    let r := rec (pushSt R s move) beta
    let s2 := popSt r.2
    let mn := min min_eval r.1
    let beta2 := min beta mn
    if beta2 ≤ alpha then (mn, s2)
    else minimaxLoopMin R rec alpha ms s2 mn beta2

/-- Translation of `ChessEngine.minimax` (lines 60-143) on the stateful
board.  Depth 0 returns the static evaluation (`evaluate_material` is
called with the current board, which is also `self.board`, the two being
aliases in every call the program makes); at positive depth a terminal
position is scored by `terminal_score`; otherwise the side to score loops
over the legal moves with its alpha-beta loop.  The pair returned is
(score, board state after the call). -/
def minimax (R : Rules B M) : BoardSt B → Nat → Int → Int → Bool → Int × BoardSt B
  | s, 0, _, _, _ => (evaluate_material R s.pos s.pos, s)
  | s, d + 1, alpha, beta, is_maximizing_player =>
    if R.is_game_over s.pos then (terminal_score R s.pos (d + 1), s)
    else if is_maximizing_player then
      minimaxLoopMax R (fun s2 a => minimax R s2 d a beta false) beta
        (R.legal_moves s.pos) s (-INF_SCORE) alpha
    else
      minimaxLoopMin R (fun s2 bt => minimax R s2 d alpha bt true) alpha
        (R.legal_moves s.pos) s INF_SCORE beta

/-- The root loop of `find_best_move` (lines 164-186): push, search the
opponent, pop, keep the move on strict improvement, and update `alpha`
(maximizing) or `beta` (minimizing) from the updated best — with no
root-level cutoff. -/
def findBestLoop (R : Rules B M) (d : Nat) (is_max : Bool) :
    List M → BoardSt B → Option M → Int → Int → Int → Option M × Int × BoardSt B
  | [], s, best_move, best_eval, _, _ => (best_move, best_eval, s)
  | move :: ms, s, best_move, best_eval, alpha, beta =>
    let r := minimax R (pushSt R s move) d alpha beta (!is_max)
    let s2 := popSt r.2
    if is_max then
      if best_eval < r.1 then
        findBestLoop R d is_max ms s2 (some move) r.1 (max alpha r.1) beta
      else
        findBestLoop R d is_max ms s2 best_move best_eval (max alpha best_eval) beta
    else
      if r.1 < best_eval then
        findBestLoop R d is_max ms s2 (some move) r.1 alpha (min beta r.1)
      else
        findBestLoop R d is_max ms s2 best_move best_eval alpha (min beta best_eval)

/-- Translation of `ChessEngine.find_best_move` (lines 145-195): the side
to move at `self.board` is the maximizer iff it is White; `best_eval`
starts at the losing sentinel for that side, the window starts at
(`-INF_SCORE`, `INF_SCORE`), and each root move is searched at
`depth - 1`.  Returned: (best move or none, the best score the code
computes and prints, final board state). -/
def find_best_move (R : Rules B M) (s : BoardSt B) (depth : Nat) :
    Option M × Int × BoardSt B :=
  let is_maximizing_player : Bool := R.turn s.pos == Color.white
  let best_eval : Int := if is_maximizing_player then -INF_SCORE else INF_SCORE
  findBestLoop R (depth - 1) is_maximizing_player (R.legal_moves s.pos) s
    none best_eval (-INF_SCORE) INF_SCORE

/-- Value-level reading of the maximizing loop (the board is immutable
here; `f child alpha` is the recursive search of a child). -/
def valLoopMax (R : Rules B M) (f : B → Int → Int) (beta : Int) :
    List M → B → Int → Int → Int
  | [], _, max_eval, _ => max_eval
  | move :: ms, b, max_eval, alpha =>
    let evaluation := f (R.push b move) alpha
    let me := max max_eval evaluation
    let alpha2 := max alpha me
    if beta ≤ alpha2 then me
    else valLoopMax R f beta ms b me alpha2

/-- Value-level reading of the minimizing loop. -/
def valLoopMin (R : Rules B M) (f : B → Int → Int) (alpha : Int) :
    List M → B → Int → Int → Int
  | [], _, min_eval, _ => min_eval
  | move :: ms, b, min_eval, beta =>
    let evaluation := f (R.push b move) beta
    let mn := min min_eval evaluation
    let beta2 := min beta mn
    if beta2 ≤ alpha then mn
    else valLoopMin R f alpha ms b mn beta2

/-- Value-level reading of `minimax`: same recursion as `minimax` with
the board state left implicit (proved equal to it below). -/
def minimaxVal (R : Rules B M) (b : B) : Nat → Int → Int → Bool → Int
  | 0, _, _, _ => evaluate_material R b b
  | d + 1, alpha, beta, is_maximizing_player =>
    if R.is_game_over b then terminal_score R b (d + 1)
    else if is_maximizing_player then
      valLoopMax R (fun c a => minimaxVal R c d a beta false) beta
        (R.legal_moves b) b (-INF_SCORE) alpha
    else
      valLoopMin R (fun c bt => minimaxVal R c d alpha bt true) alpha
        (R.legal_moves b) b INF_SCORE beta

/-- Maximizing loop instrumented with the list of child evaluations the
code actually examines before returning (in order); a pruning cutoff
stops the list early. -/
def valLoopMaxEx (R : Rules B M) (f : B → Int → Int) (beta : Int) :
    List M → B → Int → Int → Int × List Int
  | [], _, max_eval, _ => (max_eval, [])
  | move :: ms, b, max_eval, alpha =>
    let evaluation := f (R.push b move) alpha
    let me := max max_eval evaluation
    let alpha2 := max alpha me
    if beta ≤ alpha2 then (me, [evaluation])
    else
      let r := valLoopMaxEx R f beta ms b me alpha2
      (r.1, evaluation :: r.2)

/-- Minimizing loop instrumented with the examined child evaluations. -/
def valLoopMinEx (R : Rules B M) (f : B → Int → Int) (alpha : Int) :
    List M → B → Int → Int → Int × List Int
  | [], _, min_eval, _ => (min_eval, [])
  | move :: ms, b, min_eval, beta =>
    let evaluation := f (R.push b move) beta
    let mn := min min_eval evaluation
    let beta2 := min beta mn
    if beta2 ≤ alpha then (mn, [evaluation])
    else
      let r := valLoopMinEx R f alpha ms b mn beta2
      (r.1, evaluation :: r.2)

/-- `minimaxVal` instrumented with the child evaluations examined at the
top node (empty at depth 0 and at terminal positions, where no move is
ever examined). -/
def minimaxValEx (R : Rules B M) (b : B) : Nat → Int → Int → Bool → Int × List Int
  | 0, _, _, _ => (evaluate_material R b b, [])
  | d + 1, alpha, beta, is_maximizing_player =>
    if R.is_game_over b then (terminal_score R b (d + 1), [])
    else if is_maximizing_player then
      valLoopMaxEx R (fun c a => minimaxVal R c d a beta false) beta
        (R.legal_moves b) b (-INF_SCORE) alpha
    else
      valLoopMinEx R (fun c bt => minimaxVal R c d alpha bt true) alpha
        (R.legal_moves b) b INF_SCORE beta

/-- The unpruned maximizing loop: plain running maximum over all
children. -/
def fullLoopMax (R : Rules B M) (F : B → Int) : List M → B → Int → Int
  | [], _, max_eval => max_eval
  | move :: ms, b, max_eval => fullLoopMax R F ms b (max max_eval (F (R.push b move)))

/-- The unpruned minimizing loop. -/
def fullLoopMin (R : Rules B M) (F : B → Int) : List M → B → Int → Int
  | [], _, min_eval => min_eval
  | move :: ms, b, min_eval => fullLoopMin R F ms b (min min_eval (F (R.push b move)))

/-- Modelled from the spec (section 8): the unpruned full minimax at the
same depth — identical to `minimaxVal` except that no alpha-beta cutoff
is ever taken.  Reference search for the refinement claim. -/
def minimaxFull (R : Rules B M) (b : B) : Nat → Bool → Int
  | 0, _ => evaluate_material R b b
  | d + 1, is_maximizing_player =>
    if R.is_game_over b then terminal_score R b (d + 1)
    else if is_maximizing_player then
      fullLoopMax R (fun c => minimaxFull R c d false) (R.legal_moves b) b (-INF_SCORE)
    else
      fullLoopMin R (fun c => minimaxFull R c d true) (R.legal_moves b) b INF_SCORE

/-- The unpruned root loop: like `findBestLoop` but searching each child
with `minimaxFull` and keeping no window. -/
def findBestLoopFull (R : Rules B M) (d : Nat) (is_max : Bool) :
    List M → BoardSt B → Option M → Int → Option M × Int × BoardSt B
  | [], s, best_move, best_eval => (best_move, best_eval, s)
  | move :: ms, s, best_move, best_eval =>
    let s1 := pushSt R s move
    let v := minimaxFull R s1.pos d (!is_max)
    let s2 := popSt s1
    if is_max then
      if best_eval < v then findBestLoopFull R d is_max ms s2 (some move) v
      else findBestLoopFull R d is_max ms s2 best_move best_eval
    else
      if v < best_eval then findBestLoopFull R d is_max ms s2 (some move) v
      else findBestLoopFull R d is_max ms s2 best_move best_eval

/-- Modelled from the spec (section 8): the root selection an unpruned
search would make — same side convention, initial best and strict
improvement rule as `find_best_move`, but each root move scored by the
unpruned `minimaxFull`. -/
def find_best_move_full (R : Rules B M) (s : BoardSt B) (depth : Nat) :
    Option M × Int × BoardSt B :=
  let is_maximizing_player : Bool := R.turn s.pos == Color.white
  let best_eval : Int := if is_maximizing_player then -INF_SCORE else INF_SCORE
  findBestLoopFull R (depth - 1) is_maximizing_player (R.legal_moves s.pos) s none best_eval

/-- A small concrete rules instance (a finite game tree on `Nat` node
ids, a move being the id of the child it leads to) used for concrete
evaluations of the engine.  Chains 10-13 and 20-25 are forced White
mates in 3 and in 5 plies; 30-34 is a forced Black win with a faster and
a slower mating child; 40-42 is a position whose only move runs into an
immediate mate; 70-72 and 80-81 are small pruning/mate configurations;
50 and 51 are quiet positions with one white (resp. black) pawn;
60 and 61 are drawn terminal positions (61 with `outcome() = None`). -/
def demoMoves : Nat → List Nat
  | 10 => [11]
  | 11 => [12]
  | 12 => [13]
  | 20 => [21]
  | 21 => [22]
  | 22 => [23]
  | 23 => [24]
  | 24 => [25]
  | 30 => [31, 34]
  | 31 => [32]
  | 32 => [33]
  | 40 => [41]
  | 41 => [42]
  | 70 => [71, 72]
  | 80 => [81]
  | _ => []

/-- Terminal flags of the demo game. -/
def demoOver : Nat → Bool
  | 13 | 25 | 33 | 34 | 42 | 71 | 72 | 81 | 60 | 61 => true
  | _ => false

/-- Outcomes of the demo game's terminal nodes. -/
def demoOutcome : Nat → Option Outcome
  | 13 | 25 | 72 | 81 => some ⟨some Color.white⟩
  | 33 | 34 | 42 | 71 => some ⟨some Color.black⟩
  | 60 => some ⟨none⟩
  | _ => none

/-- Checkmate flags of the demo game. -/
def demoMate : Nat → Bool
  | 13 | 25 | 33 | 34 | 42 | 71 | 72 | 81 => true
  | _ => false

/-- Piece counts of the demo game: node 50 has a single white pawn and
node 51 a single black pawn; all other nodes are bare. -/
def demoCount : Nat → Piece → Color → Nat
  | 50, .pawn, .white => 1
  | 51, .pawn, .black => 1
  | _, _, _ => 0

/-- Side to move in the demo game (White wherever it matters). -/
def demoTurn : Nat → Color
  | _ => Color.white

/-- The demo rules instance. -/
def demo : Rules Nat Nat where
  legal_moves := demoMoves
  push := fun _ m => m
  is_game_over := demoOver
  outcome := demoOutcome
  is_checkmate := demoMate
  pieces_count := demoCount
  turn := demoTurn

end ChessEngine


namespace ChessEngine

variable {B M : Type}

/-! ### Push/pop round trip and value/state separation -/

/-- A pop immediately after a push restores the exact previous board
state. -/
theorem popSt_pushSt (R : Rules B M) (s : BoardSt B) (move : M) :
    popSt (pushSt R s move) = s := rfl

/-- The stateful maximizing loop computes the value of the pure loop and
returns the board it was started with. -/
theorem minimaxLoopMax_eq_val (R : Rules B M) (rec : BoardSt B → Int → Int × BoardSt B)
    (f : B → Int → Int) (beta : Int)
    (h : ∀ (s2 : BoardSt B) (a : Int), rec s2 a = (f s2.pos a, s2)) :
    ∀ (ms : List M) (s : BoardSt B) (me a : Int),
      minimaxLoopMax R rec beta ms s me a = (valLoopMax R f beta ms s.pos me a, s) := by
  intro ms
  induction ms with
  | nil => intro s me a; rfl
  | cons m ms ih =>
    intro s me a
    simp only [minimaxLoopMax, valLoopMax, h (pushSt R s m) a]
    have hpos : (pushSt R s m).pos = R.push s.pos m := rfl
    rw [hpos, popSt_pushSt]
    split
    · rfl
    · exact ih s _ _

/-- The stateful minimizing loop computes the value of the pure loop and
returns the board it was started with. -/
theorem minimaxLoopMin_eq_val (R : Rules B M) (rec : BoardSt B → Int → Int × BoardSt B)
    (f : B → Int → Int) (alpha : Int)
    (h : ∀ (s2 : BoardSt B) (bt : Int), rec s2 bt = (f s2.pos bt, s2)) :
    ∀ (ms : List M) (s : BoardSt B) (mn bt : Int),
      minimaxLoopMin R rec alpha ms s mn bt = (valLoopMin R f alpha ms s.pos mn bt, s) := by
  intro ms
  induction ms with
  | nil => intro s mn bt; rfl
  | cons m ms ih =>
    intro s mn bt
    simp only [minimaxLoopMin, valLoopMin, h (pushSt R s m) bt]
    have hpos : (pushSt R s m).pos = R.push s.pos m := rfl
    rw [hpos, popSt_pushSt]
    split
    · rfl
    · exact ih s _ _

/-- `minimax` computes `minimaxVal` on the current position and hands the
board back exactly as it received it. -/
theorem minimax_eq_val (R : Rules B M) :
    ∀ (d : Nat) (s : BoardSt B) (alpha beta : Int) (mx : Bool),
      minimax R s d alpha beta mx = (minimaxVal R s.pos d alpha beta mx, s) := by
  intro d
  induction d with
  | zero => intro s alpha beta mx; rfl
  | succ d ih =>
    intro s alpha beta mx
    by_cases hg : R.is_game_over s.pos
    · simp [minimax, minimaxVal, hg]
    · cases mx with
      | true =>
        simp only [minimax, minimaxVal, hg, Bool.false_eq_true, if_false, if_true]
        exact minimaxLoopMax_eq_val R _ _ beta (fun s2 a => ih s2 a beta false) _ s _ _
      | false =>
        simp only [minimax, minimaxVal, hg, Bool.false_eq_true, if_false]
        exact minimaxLoopMin_eq_val R _ _ alpha (fun s2 bt => ih s2 alpha bt true) _ s _ _

/-- The root loop hands the board back exactly as it received it. -/
theorem findBestLoop_state (R : Rules B M) (d : Nat) (is_max : Bool) :
    ∀ (ms : List M) (s : BoardSt B) (bm : Option M) (be alpha beta : Int),
      (findBestLoop R d is_max ms s bm be alpha beta).2.2 = s := by
  intro ms
  induction ms with
  | nil => intro s bm be alpha beta; rfl
  | cons m ms ih =>
    intro s bm be alpha beta
    simp only [findBestLoop, minimax_eq_val R d (pushSt R s m), popSt_pushSt]
    split
    · split
      · exact ih s _ _ _ _
      · exact ih s _ _ _ _
    · split
      · exact ih s _ _ _ _
      · exact ih s _ _ _ _

end ChessEngine

namespace ChessEngine

variable {B M : Type}

/-! ### Elementary bounds on the loops -/

/-- The maximizing loop never returns below its running maximum. -/
theorem valLoopMax_ge (R : Rules B M) (f : B → Int → Int) (beta : Int) :
    ∀ (ms : List M) (b : B) (me a : Int), me ≤ valLoopMax R f beta ms b me a := by
  intro ms
  induction ms with
  | nil => intro b me a; simp [valLoopMax]
  | cons m ms ih =>
    intro b me a
    simp only [valLoopMax]
    split
    · omega
    · have := ih b (max me (f (R.push b m) a)) (max a (max me (f (R.push b m) a)))
      omega

/-- The minimizing loop never returns above its running minimum. -/
theorem valLoopMin_le (R : Rules B M) (f : B → Int → Int) (alpha : Int) :
    ∀ (ms : List M) (b : B) (mn bt : Int), valLoopMin R f alpha ms b mn bt ≤ mn := by
  intro ms
  induction ms with
  | nil => intro b mn bt; simp [valLoopMin]
  | cons m ms ih =>
    intro b mn bt
    simp only [valLoopMin]
    split
    · omega
    · have := ih b (min mn (f (R.push b m) bt)) (min bt (min mn (f (R.push b m) bt)))
      omega

/-- The unpruned maximizing loop never returns below its running
maximum. -/
theorem fullLoopMax_ge (R : Rules B M) (F : B → Int) :
    ∀ (ms : List M) (b : B) (me : Int), me ≤ fullLoopMax R F ms b me := by
  intro ms
  induction ms with
  | nil => intro b me; simp [fullLoopMax]
  | cons m ms ih =>
    intro b me
    simp only [fullLoopMax]
    have := ih b (max me (F (R.push b m)))
    omega

/-- The unpruned minimizing loop never returns above its running
minimum. -/
theorem fullLoopMin_le (R : Rules B M) (F : B → Int) :
    ∀ (ms : List M) (b : B) (mn : Int), fullLoopMin R F ms b mn ≤ mn := by
  intro ms
  induction ms with
  | nil => intro b mn; simp [fullLoopMin]
  | cons m ms ih =>
    intro b mn
    simp only [fullLoopMin]
    have := ih b (min mn (F (R.push b m)))
    omega

/-- Starting the unpruned maximizing loop at a join of two values
factors the second value out of the loop. -/
theorem fullLoopMax_max (R : Rules B M) (F : B → Int) :
    ∀ (ms : List M) (b : B) (x y : Int),
      fullLoopMax R F ms b (max x y) = max (fullLoopMax R F ms b x) y := by
  intro ms
  induction ms with
  | nil => intro b x y; simp [fullLoopMax]
  | cons m ms ih =>
    intro b x y
    simp only [fullLoopMax]
    have h : max (max x y) (F (R.push b m)) = max (max x (F (R.push b m))) y := by omega
    rw [h, ih]

/-- Starting the unpruned minimizing loop at a meet of two values
factors the second value out of the loop. -/
theorem fullLoopMin_min (R : Rules B M) (F : B → Int) :
    ∀ (ms : List M) (b : B) (x y : Int),
      fullLoopMin R F ms b (min x y) = min (fullLoopMin R F ms b x) y := by
  intro ms
  induction ms with
  | nil => intro b x y; simp [fullLoopMin]
  | cons m ms ih =>
    intro b x y
    simp only [fullLoopMin]
    have h : min (min x y) (F (R.push b m)) = min (min x (F (R.push b m))) y := by omega
    rw [h, ih]

/-- Interior minimizing nodes never score above `INF_SCORE`: the running
minimum starts there and only decreases. -/
theorem minimaxVal_min_le (R : Rules B M) (b : B) (d : Nat) (alpha beta : Int)
    (hg : R.is_game_over b = false) :
    minimaxVal R b (d + 1) alpha beta false ≤ INF_SCORE := by
  simp only [minimaxVal, hg, Bool.false_eq_true, if_false]
  exact valLoopMin_le R _ alpha _ b INF_SCORE beta

/-- Interior maximizing nodes never score below `-INF_SCORE`. -/
theorem minimaxVal_max_ge (R : Rules B M) (b : B) (d : Nat) (alpha beta : Int)
    (hg : R.is_game_over b = false) :
    -INF_SCORE ≤ minimaxVal R b (d + 1) alpha beta true := by
  simp only [minimaxVal, hg, Bool.false_eq_true, if_false, if_true]
  exact valLoopMax_ge R _ beta _ b (-INF_SCORE) alpha

/-- Interior minimizing nodes of the unpruned search never score above
`INF_SCORE`. -/
theorem minimaxFull_min_le (R : Rules B M) (b : B) (d : Nat)
    (hg : R.is_game_over b = false) :
    minimaxFull R b (d + 1) false ≤ INF_SCORE := by
  simp only [minimaxFull, hg, Bool.false_eq_true, if_false]
  exact fullLoopMin_le R _ _ b INF_SCORE

/-- Interior maximizing nodes of the unpruned search never score below
`-INF_SCORE`. -/
theorem minimaxFull_max_ge (R : Rules B M) (b : B) (d : Nat)
    (hg : R.is_game_over b = false) :
    -INF_SCORE ≤ minimaxFull R b (d + 1) true := by
  simp only [minimaxFull, hg, Bool.false_eq_true, if_false, if_true]
  exact fullLoopMax_ge R _ _ b (-INF_SCORE)

/-- On a terminal position the value of `minimax` does not depend on the
window at all and agrees with the unpruned search (at depth 0 both
searches evaluate the material, at positive depth both return the
terminal score). -/
theorem minimaxVal_gameOver (R : Rules B M) (b : B) (d : Nat) (alpha beta : Int) (mx : Bool)
    (hg : R.is_game_over b = true) :
    minimaxVal R b d alpha beta mx = minimaxFull R b d mx := by
  cases d with
  | zero => rfl
  | succ d => simp [minimaxVal, minimaxFull, hg]

/-- At depth 0 the pruned and unpruned searches agree (both evaluate the
material). -/
theorem minimaxVal_zero (R : Rules B M) (b : B) (alpha beta : Int) (mx : Bool) :
    minimaxVal R b 0 alpha beta mx = minimaxFull R b 0 mx := rfl

end ChessEngine

namespace ChessEngine

variable {B M : Type}

/-! ### Fail-soft soundness of the alpha-beta loops (Knuth-Moore style)

For a child evaluator `f` that is fail-soft sound with respect to the
reference evaluator `F`, each loop is fail-soft sound at the node: a
value strictly inside the window equals the unpruned value, a value at or
below alpha is an upper bound on it, and a value at or above beta is a
lower bound on it. -/

theorem valLoopMax_km (R : Rules B M) (f : B → Int → Int) (F : B → Int) (beta : Int)
    (hchild : ∀ (c : B) (a : Int), -INF_SCORE ≤ a → a < beta →
      (f c a ≤ a → F c ≤ f c a) ∧ (beta ≤ f c a → f c a ≤ F c) ∧
      (a < f c a → f c a < beta → f c a = F c)) :
    ∀ (ms : List M) (b : B) (me a : Int), -INF_SCORE ≤ me → me ≤ a → a < beta →
      me ≤ valLoopMax R f beta ms b me a ∧
      (valLoopMax R f beta ms b me a ≤ a →
        fullLoopMax R F ms b me ≤ valLoopMax R f beta ms b me a) ∧
      (beta ≤ valLoopMax R f beta ms b me a →
        valLoopMax R f beta ms b me a ≤ fullLoopMax R F ms b me) ∧
      (a < valLoopMax R f beta ms b me a → valLoopMax R f beta ms b me a < beta →
        valLoopMax R f beta ms b me a = fullLoopMax R F ms b me) := by
  intro ms
  induction ms with
  | nil =>
    intro b me a h1 h2 h3
    simp only [valLoopMax, fullLoopMax]
    omega
  | cons m ms ih =>
    intro b me a h1 h2 h3
    obtain ⟨hc1, hc2, hc3⟩ := hchild (R.push b m) a (by omega) h3
    simp only [valLoopMax, fullLoopMax]
    have hmax2 := fullLoopMax_max R F ms b me (F (R.push b m))
    by_cases hcut : beta ≤ max a (max me (f (R.push b m) a))
    · rw [if_pos hcut, hmax2]
      have hbv : beta ≤ f (R.push b m) a := by omega
      have hvF := hc2 hbv
      refine ⟨by omega, by omega, by omega, by omega⟩
    · rw [if_neg hcut]
      obtain ⟨i1, i2, i3, i4⟩ :=
        ih b (max me (f (R.push b m) a)) (max a (max me (f (R.push b m) a)))
          (by omega) (by omega) (by omega)
      have hmax1 := fullLoopMax_max R F ms b me (f (R.push b m) a)
      rw [hmax1] at i2 i3 i4
      rw [hmax2]
      refine ⟨by omega, ?_, ?_, ?_⟩
      · intro hga
        have hva : f (R.push b m) a ≤ a := by omega
        have hFv := hc1 hva
        have hi2 := i2 (by omega)
        omega
      · intro hbg
        have hi3 := i3 (by omega)
        rcases le_or_lt beta (f (R.push b m) a) with hbv | hbv
        · have hvF := hc2 hbv
          omega
        · omega
      · intro hag hgb
        by_cases hag2 : max a (max me (f (R.push b m) a)) <
            valLoopMax R f beta ms b (max me (f (R.push b m) a))
              (max a (max me (f (R.push b m) a)))
        · have hgeq := i4 hag2 (by omega)
          rcases le_or_lt (f (R.push b m) a) a with hva | hva
          · have hFv := hc1 hva
            omega
          · have hexact := hc3 hva (by omega)
            omega
        · have hi2 := i2 (by omega)
          have hveq : f (R.push b m) a =
              valLoopMax R f beta ms b (max me (f (R.push b m) a))
                (max a (max me (f (R.push b m) a))) := by omega
          have hexact := hc3 (by omega) (by omega)
          omega

theorem valLoopMin_km (R : Rules B M) (f : B → Int → Int) (F : B → Int) (alpha : Int)
    (hchild : ∀ (c : B) (bt : Int), bt ≤ INF_SCORE → alpha < bt →
      (f c bt ≤ alpha → F c ≤ f c bt) ∧ (bt ≤ f c bt → f c bt ≤ F c) ∧
      (alpha < f c bt → f c bt < bt → f c bt = F c)) :
    ∀ (ms : List M) (b : B) (mn bt : Int), mn ≤ INF_SCORE → bt ≤ mn → alpha < bt →
      valLoopMin R f alpha ms b mn bt ≤ mn ∧
      (valLoopMin R f alpha ms b mn bt ≤ alpha →
        fullLoopMin R F ms b mn ≤ valLoopMin R f alpha ms b mn bt) ∧
      (bt ≤ valLoopMin R f alpha ms b mn bt →
        valLoopMin R f alpha ms b mn bt ≤ fullLoopMin R F ms b mn) ∧
      (alpha < valLoopMin R f alpha ms b mn bt → valLoopMin R f alpha ms b mn bt < bt →
        valLoopMin R f alpha ms b mn bt = fullLoopMin R F ms b mn) := by
  intro ms
  induction ms with
  | nil =>
    intro b mn bt h1 h2 h3
    simp only [valLoopMin, fullLoopMin]
    omega
  | cons m ms ih =>
    intro b mn bt h1 h2 h3
    obtain ⟨hc1, hc2, hc3⟩ := hchild (R.push b m) bt (by omega) h3
    simp only [valLoopMin, fullLoopMin]
    have hmin2 := fullLoopMin_min R F ms b mn (F (R.push b m))
    by_cases hcut : min bt (min mn (f (R.push b m) bt)) ≤ alpha
    · rw [if_pos hcut, hmin2]
      have hva : f (R.push b m) bt ≤ alpha := by omega
      have hFv := hc1 hva
      refine ⟨by omega, by omega, by omega, by omega⟩
    · rw [if_neg hcut]
      obtain ⟨i1, i2, i3, i4⟩ :=
        ih b (min mn (f (R.push b m) bt)) (min bt (min mn (f (R.push b m) bt)))
          (by omega) (by omega) (by omega)
      have hmin1 := fullLoopMin_min R F ms b mn (f (R.push b m) bt)
      rw [hmin1] at i2 i3 i4
      rw [hmin2]
      refine ⟨by omega, ?_, ?_, ?_⟩
      · intro hga
        have hi2 := i2 (by omega)
        rcases le_or_lt (f (R.push b m) bt) alpha with hva | hva
        · have hFv := hc1 hva
          omega
        · omega
      · intro hbg
        have hbtv : bt ≤ f (R.push b m) bt := by omega
        have hvF := hc2 hbtv
        have hi3 := i3 (by omega)
        omega
      · intro hag hgb
        by_cases hbg2 : valLoopMin R f alpha ms b (min mn (f (R.push b m) bt))
              (min bt (min mn (f (R.push b m) bt))) <
            min bt (min mn (f (R.push b m) bt))
        · have hgeq := i4 (by omega) hbg2
          rcases le_or_lt bt (f (R.push b m) bt) with hbtv | hbtv
          · have hvF := hc2 hbtv
            omega
          · have hexact := hc3 (by omega) hbtv
            omega
        · have hi3 := i3 (by omega)
          have hveq : f (R.push b m) bt =
              valLoopMin R f alpha ms b (min mn (f (R.push b m) bt))
                (min bt (min mn (f (R.push b m) bt))) := by omega
          have hexact := hc3 (by omega) (by omega)
          omega

end ChessEngine

namespace ChessEngine

variable {B M : Type}

/-- Fail-soft soundness of `minimaxVal` against the unpruned
`minimaxFull`, for any window inside the root window
(`-INF_SCORE ≤ alpha`, `beta ≤ INF_SCORE`, `alpha < beta`): a returned
value strictly inside the window is the unpruned value; a returned value
at or below `alpha` is an upper bound on the unpruned value; a returned
value at or above `beta` is a lower bound on it. -/
theorem minimaxVal_km (R : Rules B M) :
    ∀ (d : Nat) (b : B) (alpha beta : Int) (mx : Bool),
      -INF_SCORE ≤ alpha → beta ≤ INF_SCORE → alpha < beta →
      ((minimaxVal R b d alpha beta mx ≤ alpha →
          minimaxFull R b d mx ≤ minimaxVal R b d alpha beta mx) ∧
       (beta ≤ minimaxVal R b d alpha beta mx →
          minimaxVal R b d alpha beta mx ≤ minimaxFull R b d mx) ∧
       (alpha < minimaxVal R b d alpha beta mx →
          minimaxVal R b d alpha beta mx < beta →
          minimaxVal R b d alpha beta mx = minimaxFull R b d mx)) := by
  intro d
  induction d with
  | zero =>
    intro b alpha beta mx h1 h2 h3
    have hq : minimaxVal R b 0 alpha beta mx = minimaxFull R b 0 mx := rfl
    rw [hq]
    omega
  | succ d ih =>
    intro b alpha beta mx h1 h2 h3
    by_cases hg : R.is_game_over b
    · have hq := minimaxVal_gameOver R b (d + 1) alpha beta mx hg
      rw [hq]
      omega
    · cases mx with
      | true =>
        have hloop := valLoopMax_km R (fun c a => minimaxVal R c d a beta false)
          (fun c => minimaxFull R c d false) beta
          (fun c a ha hab => ih c a beta false ha h2 hab)
          (R.legal_moves b) b (-INF_SCORE) alpha le_rfl h1 h3
        simp only [minimaxVal, minimaxFull, hg, Bool.false_eq_true, if_false, if_true]
        exact ⟨hloop.2.1, hloop.2.2.1, hloop.2.2.2⟩
      | false =>
        have hloop := valLoopMin_km R (fun c bt => minimaxVal R c d alpha bt true)
          (fun c => minimaxFull R c d true) alpha
          (fun c bt hbt hab => ih c alpha bt true h1 hbt hab)
          (R.legal_moves b) b INF_SCORE beta le_rfl h2 h3
        simp only [minimaxVal, minimaxFull, hg, Bool.false_eq_true, if_false]
        exact ⟨hloop.2.1, hloop.2.2.1, hloop.2.2.2⟩

end ChessEngine

namespace ChessEngine

variable {B M : Type}

/-- A root child of a maximizing root, searched with the window
(`best_eval`, `INF_SCORE`) that `find_best_move` uses, either returns
exactly the unpruned value or both searches return at most `best_eval`
(in which case neither can win the strict-improvement comparison). -/
theorem rootChildMax_key (R : Rules B M) (d : Nat) (c : B) (be : Int)
    (hbe : -INF_SCORE ≤ be) :
    minimaxVal R c d be INF_SCORE false = minimaxFull R c d false ∨
    (minimaxVal R c d be INF_SCORE false ≤ be ∧ minimaxFull R c d false ≤ be) := by
  cases d with
  | zero => exact Or.inl rfl
  | succ d2 =>
    by_cases hg : R.is_game_over c
    · exact Or.inl (minimaxVal_gameOver R c (d2 + 1) be INF_SCORE false hg)
    · have hg2 : R.is_game_over c = false := by simpa using hg
      have hvle := minimaxVal_min_le R c d2 be INF_SCORE hg2
      have htle := minimaxFull_min_le R c d2 hg2
      by_cases hbi : be < INF_SCORE
      · obtain ⟨k1, k2, k3⟩ := minimaxVal_km R (d2 + 1) c be INF_SCORE false hbe le_rfl hbi
        rcases le_or_lt (minimaxVal R c (d2 + 1) be INF_SCORE false) be with h | h
        · exact Or.inr ⟨h, le_trans (k1 h) h⟩
        · rcases lt_or_le (minimaxVal R c (d2 + 1) be INF_SCORE false) INF_SCORE with h4 | h4
          · exact Or.inl (k3 h h4)
          · have := k2 h4
            exact Or.inl (by omega)
      · exact Or.inr ⟨by omega, by omega⟩

/-- A root child of a minimizing root, searched with the window
(`-INF_SCORE`, `best_eval`) that `find_best_move` uses, either returns
exactly the unpruned value or both searches return at least
`best_eval`. -/
theorem rootChildMin_key (R : Rules B M) (d : Nat) (c : B) (be : Int)
    (hbe : be ≤ INF_SCORE) :
    minimaxVal R c d (-INF_SCORE) be true = minimaxFull R c d true ∨
    (be ≤ minimaxVal R c d (-INF_SCORE) be true ∧ be ≤ minimaxFull R c d true) := by
  cases d with
  | zero => exact Or.inl rfl
  | succ d2 =>
    by_cases hg : R.is_game_over c
    · exact Or.inl (minimaxVal_gameOver R c (d2 + 1) (-INF_SCORE) be true hg)
    · have hg2 : R.is_game_over c = false := by simpa using hg
      have hvge := minimaxVal_max_ge R c d2 (-INF_SCORE) be hg2
      have htge := minimaxFull_max_ge R c d2 hg2
      by_cases hbi : -INF_SCORE < be
      · obtain ⟨k1, k2, k3⟩ := minimaxVal_km R (d2 + 1) c (-INF_SCORE) be true le_rfl hbe hbi
        rcases le_or_lt be (minimaxVal R c (d2 + 1) (-INF_SCORE) be true) with h | h
        · exact Or.inr ⟨h, le_trans h (k2 h)⟩
        · rcases lt_or_le (-INF_SCORE) (minimaxVal R c (d2 + 1) (-INF_SCORE) be true) with h4 | h4
          · exact Or.inl (k3 h4 h)
          · have := k1 h4
            exact Or.inl (by omega)
      · exact Or.inr ⟨by omega, by omega⟩

/-- The maximizing root loop of `find_best_move`, run with its invariant
`alpha = best_eval`, selects exactly the move and score that the
unpruned root loop selects. -/
theorem findBestLoop_max_eq (R : Rules B M) (d : Nat) :
    ∀ (ms : List M) (s : BoardSt B) (bm : Option M) (be : Int), -INF_SCORE ≤ be →
      findBestLoop R d true ms s bm be be INF_SCORE = findBestLoopFull R d true ms s bm be := by
  intro ms
  induction ms with
  | nil => intro s bm be hbe; rfl
  | cons m ms ih =>
    intro s bm be hbe
    simp only [findBestLoop, findBestLoopFull, minimax_eq_val R d (pushSt R s m),
      popSt_pushSt, Bool.not_true, if_true]
    rcases rootChildMax_key R d (pushSt R s m).pos be hbe with hk | ⟨hk1, hk2⟩
    · rw [hk]
      by_cases hlt : be < minimaxFull R (pushSt R s m).pos d false
      · rw [if_pos hlt, if_pos hlt, max_eq_right (le_of_lt hlt)]
        exact ih s (some m) _ (by omega)
      · rw [if_neg hlt, if_neg hlt, max_self]
        exact ih s bm be hbe
    · rw [if_neg (by omega : ¬ be < minimaxVal R (pushSt R s m).pos d be INF_SCORE false),
        if_neg (by omega : ¬ be < minimaxFull R (pushSt R s m).pos d false), max_self]
      exact ih s bm be hbe

/-- The minimizing root loop of `find_best_move`, run with its invariant
`beta = best_eval`, selects exactly the move and score that the unpruned
root loop selects. -/
theorem findBestLoop_min_eq (R : Rules B M) (d : Nat) :
    ∀ (ms : List M) (s : BoardSt B) (bm : Option M) (be : Int), be ≤ INF_SCORE →
      findBestLoop R d false ms s bm be (-INF_SCORE) be = findBestLoopFull R d false ms s bm be := by
  intro ms
  induction ms with
  | nil => intro s bm be hbe; rfl
  | cons m ms ih =>
    intro s bm be hbe
    simp only [findBestLoop, findBestLoopFull, minimax_eq_val R d (pushSt R s m),
      popSt_pushSt, Bool.not_false, if_false]
    rcases rootChildMin_key R d (pushSt R s m).pos be hbe with hk | ⟨hk1, hk2⟩
    · rw [hk]
      by_cases hlt : minimaxFull R (pushSt R s m).pos d true < be
      · rw [if_pos hlt, if_pos hlt, min_eq_right (le_of_lt hlt)]
        exact ih s (some m) _ (by omega)
      · rw [if_neg hlt, if_neg hlt, min_self]
        exact ih s bm be hbe
    · rw [if_neg (by omega : ¬ minimaxVal R (pushSt R s m).pos d (-INF_SCORE) be true < be),
        if_neg (by omega : ¬ minimaxFull R (pushSt R s m).pos d true < be), min_self]
      exact ih s bm be hbe

/-- `find_best_move` (pruned) and the unpruned root selection agree
completely: same chosen move, same best score, same final board
state. -/
theorem find_best_move_eq_full (R : Rules B M) (s : BoardSt B) (depth : Nat) :
    find_best_move R s depth = find_best_move_full R s depth := by
  unfold find_best_move find_best_move_full
  cases ht : (R.turn s.pos == Color.white) with
  | true =>
    simp only [if_true]
    exact findBestLoop_max_eq R (depth - 1) (R.legal_moves s.pos) s none (-INF_SCORE) le_rfl
  | false =>
    simp only [if_false]
    exact findBestLoop_min_eq R (depth - 1) (R.legal_moves s.pos) s none INF_SCORE le_rfl

end ChessEngine

namespace ChessEngine

variable {B M : Type}

/-! ### The examined-children trace -/

/-- The instrumented maximizing loop returns the same value as the plain
loop. -/
theorem valLoopMaxEx_fst (R : Rules B M) (f : B → Int → Int) (beta : Int) :
    ∀ (ms : List M) (b : B) (me a : Int),
      (valLoopMaxEx R f beta ms b me a).1 = valLoopMax R f beta ms b me a := by
  intro ms
  induction ms with
  | nil => intro b me a; rfl
  | cons m ms ih =>
    intro b me a
    simp only [valLoopMaxEx, valLoopMax]
    split
    · rfl
    · exact ih b _ _

/-- The instrumented minimizing loop returns the same value as the plain
loop. -/
theorem valLoopMinEx_fst (R : Rules B M) (f : B → Int → Int) (alpha : Int) :
    ∀ (ms : List M) (b : B) (mn bt : Int),
      (valLoopMinEx R f alpha ms b mn bt).1 = valLoopMin R f alpha ms b mn bt := by
  intro ms
  induction ms with
  | nil => intro b mn bt; rfl
  | cons m ms ih =>
    intro b mn bt
    simp only [valLoopMinEx, valLoopMin]
    split
    · rfl
    · exact ih b _ _

/-- The value the maximizing loop returns is the fold of `max` over its
starting running maximum and exactly the child evaluations it
examined. -/
theorem valLoopMaxEx_fold (R : Rules B M) (f : B → Int → Int) (beta : Int) :
    ∀ (ms : List M) (b : B) (me a : Int),
      (valLoopMaxEx R f beta ms b me a).1 =
        ((valLoopMaxEx R f beta ms b me a).2).foldl max me := by
  intro ms
  induction ms with
  | nil => intro b me a; rfl
  | cons m ms ih =>
    intro b me a
    simp only [valLoopMaxEx]
    split
    · simp [List.foldl]
    · simp only [List.foldl]
      exact ih b _ _

/-- The value the minimizing loop returns is the fold of `min` over its
starting running minimum and exactly the child evaluations it
examined. -/
theorem valLoopMinEx_fold (R : Rules B M) (f : B → Int → Int) (alpha : Int) :
    ∀ (ms : List M) (b : B) (mn bt : Int),
      (valLoopMinEx R f alpha ms b mn bt).1 =
        ((valLoopMinEx R f alpha ms b mn bt).2).foldl min mn := by
  intro ms
  induction ms with
  | nil => intro b mn bt; rfl
  | cons m ms ih =>
    intro b mn bt
    simp only [valLoopMinEx]
    split
    · simp [List.foldl]
    · simp only [List.foldl]
      exact ih b _ _

/-- The instrumented search returns the same value as `minimaxVal`. -/
theorem minimaxValEx_fst (R : Rules B M) (b : B) :
    ∀ (d : Nat) (alpha beta : Int) (mx : Bool),
      (minimaxValEx R b d alpha beta mx).1 = minimaxVal R b d alpha beta mx := by
  intro d alpha beta mx
  cases d with
  | zero => rfl
  | succ d =>
    by_cases hg : R.is_game_over b
    · simp [minimaxValEx, minimaxVal, hg]
    · cases mx with
      | true =>
        simp only [minimaxValEx, minimaxVal, hg, Bool.false_eq_true, if_false, if_true]
        exact valLoopMaxEx_fst R _ beta _ b _ alpha
      | false =>
        simp only [minimaxValEx, minimaxVal, hg, Bool.false_eq_true, if_false]
        exact valLoopMinEx_fst R _ alpha _ b _ beta

/-! ### Flattening of opposing mate scores at interior nodes -/

/-- A minimizing loop started at `INF_SCORE` whose every child
evaluation is at least `INF_SCORE` returns exactly `INF_SCORE`,
whether or not a cutoff fires. -/
theorem valLoopMin_flat (R : Rules B M) (f : B → Int → Int) (alpha : Int) :
    ∀ (ms : List M) (b : B) (bt : Int),
      (∀ m ∈ ms, ∀ bt2 : Int, INF_SCORE ≤ f (R.push b m) bt2) →
      valLoopMin R f alpha ms b INF_SCORE bt = INF_SCORE := by
  intro ms
  induction ms with
  | nil => intro b bt h; rfl
  | cons m ms ih =>
    intro b bt h
    have hv : INF_SCORE ≤ f (R.push b m) bt := h m (by simp) bt
    have hmin : min INF_SCORE (f (R.push b m) bt) = INF_SCORE := by omega
    simp only [valLoopMin, hmin]
    split
    · rfl
    · exact ih b _ (fun m2 hm2 bt2 => h m2 (by simp [hm2]) bt2)

/-- A maximizing loop started at `-INF_SCORE` whose every child
evaluation is at most `-INF_SCORE` returns exactly `-INF_SCORE`,
whether or not a cutoff fires. -/
theorem valLoopMax_flat (R : Rules B M) (f : B → Int → Int) (beta : Int) :
    ∀ (ms : List M) (b : B) (a : Int),
      (∀ m ∈ ms, ∀ a2 : Int, f (R.push b m) a2 ≤ -INF_SCORE) →
      valLoopMax R f beta ms b (-INF_SCORE) a = -INF_SCORE := by
  intro ms
  induction ms with
  | nil => intro b a h; rfl
  | cons m ms ih =>
    intro b a h
    have hv : f (R.push b m) a ≤ -INF_SCORE := h m (by simp) a
    have hmax : max (-INF_SCORE) (f (R.push b m) a) = -INF_SCORE := by omega
    simp only [valLoopMax, hmax]
    split
    · rfl
    · exact ih b _ (fun m2 hm2 a2 => h m2 (by simp [hm2]) a2)

end ChessEngine

namespace ChessEngine

variable {B M : Type}

/-- C1: the claim says a forced mate in fewer plies scores strictly
better than a forced mate in more plies for the mating side.  The code
violates this: in the demo game node 10 is a forced White mate in 3 plies
and node 20 a forced White mate in 5 plies, yet searched at depth 6 with
the full window both score exactly `INF_SCORE` — the `+ depth` bias on
the terminal mate score is flattened at interior minimizing nodes, whose
running minimum is initialized to `INF_SCORE`, so the two mates tie. -/
theorem C1_mate_distance_flattened :
    minimaxVal demo 10 6 (-INF_SCORE) INF_SCORE true = INF_SCORE ∧
    minimaxVal demo 20 6 (-INF_SCORE) INF_SCORE true = INF_SCORE ∧
    ¬ (minimaxVal demo 20 6 (-INF_SCORE) INF_SCORE true <
        minimaxVal demo 10 6 (-INF_SCORE) INF_SCORE true) :=
  ⟨by decide, by decide, by decide⟩

/-- C2 counterexample: `minimax` called with the full window does NOT
always return the unpruned minimax value.  At demo node 30 (minimizing,
depth 4, full window) the pruned search returns `-INF_SCORE` while the
unpruned search returns `-(INF_SCORE + 3)`: the first child is a clamped
forced Black win worth exactly `-INF_SCORE`, which drives `beta` down to
`alpha` and cuts off before the faster terminal mate at the second child
is seen. -/
theorem C2_full_window_not_unpruned :
    minimaxVal demo 30 4 (-INF_SCORE) INF_SCORE false = -INF_SCORE ∧
    minimaxFull demo 30 4 false = -(INF_SCORE + 3) ∧
    minimaxVal demo 30 4 (-INF_SCORE) INF_SCORE false ≠ minimaxFull demo 30 4 false :=
  ⟨by decide, by decide, by decide⟩

/-- C2 (amended): fail-soft pruning soundness.  For every window inside
the root window, a `minimax` value strictly inside (alpha, beta) equals
the unpruned value, a value at or below alpha is an upper bound on the
unpruned value, and a value at or above beta is a lower bound on it;
and `find_best_move` (at root depth at least 1) selects exactly the same
best move and best score as the unpruned root search. -/
theorem C2_pruning_soundness (R : Rules B M) :
    (∀ (b : B) (d : Nat) (alpha beta : Int) (mx : Bool),
      -INF_SCORE ≤ alpha → beta ≤ INF_SCORE → alpha < beta →
      ((minimaxVal R b d alpha beta mx ≤ alpha →
          minimaxFull R b d mx ≤ minimaxVal R b d alpha beta mx) ∧
       (beta ≤ minimaxVal R b d alpha beta mx →
          minimaxVal R b d alpha beta mx ≤ minimaxFull R b d mx) ∧
       (alpha < minimaxVal R b d alpha beta mx →
          minimaxVal R b d alpha beta mx < beta →
          minimaxVal R b d alpha beta mx = minimaxFull R b d mx))) ∧
    (∀ (s : BoardSt B) (depth : Nat), 1 ≤ depth →
      find_best_move R s depth = find_best_move_full R s depth) :=
  ⟨fun b d alpha beta mx h1 h2 h3 => minimaxVal_km R d b alpha beta mx h1 h2 h3,
   fun s depth _ => find_best_move_eq_full R s depth⟩

/-- C2 witness: the amended soundness applied at the demo game, full
window, depth 4 at node 30 and the whole driver at node 40, depth 3. -/
theorem C2_pruning_soundness_witness :
    (-INF_SCORE ≤ -INF_SCORE ∧ (INF_SCORE : Int) ≤ INF_SCORE ∧
      -INF_SCORE < INF_SCORE ∧ (1 : Nat) ≤ 3) ∧
    ((minimaxVal demo 30 4 (-INF_SCORE) INF_SCORE false ≤ -INF_SCORE →
        minimaxFull demo 30 4 false ≤ minimaxVal demo 30 4 (-INF_SCORE) INF_SCORE false) ∧
     (INF_SCORE ≤ minimaxVal demo 30 4 (-INF_SCORE) INF_SCORE false →
        minimaxVal demo 30 4 (-INF_SCORE) INF_SCORE false ≤ minimaxFull demo 30 4 false) ∧
     (-INF_SCORE < minimaxVal demo 30 4 (-INF_SCORE) INF_SCORE false →
        minimaxVal demo 30 4 (-INF_SCORE) INF_SCORE false < INF_SCORE →
        minimaxVal demo 30 4 (-INF_SCORE) INF_SCORE false = minimaxFull demo 30 4 false)) ∧
    find_best_move demo ⟨40, []⟩ 3 = find_best_move_full demo ⟨40, []⟩ 3 :=
  ⟨by decide,
   (C2_pruning_soundness demo).1 30 4 (-INF_SCORE) INF_SCORE false
     (by decide) (by decide) (by decide),
   (C2_pruning_soundness demo).2 ⟨40, []⟩ 3 (by decide)⟩

/-- C3: the claim says `find_best_move` returns no move iff the position
has no legal root moves.  The code violates the right-to-left direction:
at demo node 40 White has the legal move to 41, but that move runs into
an immediate Black mate, its score `-(INF_SCORE + 1)` is strictly below
the initial `best_eval = -INF_SCORE`, the strict-improvement test never
fires, and the search returns no move although a legal move exists. -/
theorem C3_none_despite_legal_moves :
    (find_best_move demo ⟨40, []⟩ 3).1 = none ∧
    demo.legal_moves 40 = [41] ∧
    demo.is_game_over 40 = false :=
  ⟨by decide, by decide, by decide⟩

/-- C4: net-zero mutation.  After `minimax` returns — on every exit path
including pruning cutoffs — and after `find_best_move` returns, the
board (current position and undo stack) is exactly the state it had on
entry. -/
theorem C4_net_zero_mutation (R : Rules B M) :
    (∀ (s : BoardSt B) (d : Nat) (alpha beta : Int) (mx : Bool),
       (minimax R s d alpha beta mx).2 = s) ∧
    (∀ (s : BoardSt B) (depth : Nat), (find_best_move R s depth).2.2 = s) :=
  ⟨fun s d alpha beta mx => by rw [minimax_eq_val],
   fun s depth => by
     simp only [find_best_move]
     exact findBestLoop_state R (depth - 1) _ (R.legal_moves s.pos) s none _ _ _⟩

/-- C5: the claim says `evaluate_material(b)` is a pure function of its
argument's contents.  The code violates this: the method reads
`self.board.pieces(...)` and ignores its `board` parameter, so with
`self.board` at demo node 50 (one white pawn) and the argument at node
51 (one black pawn) it returns the material of node 50 (+1) instead of
the material of its argument (-1). -/
theorem C5_evaluator_ignores_argument :
    evaluate_material demo 50 51 = material_of demo 50 ∧
    material_of demo 50 = 1 ∧
    material_of demo 51 = -1 ∧
    evaluate_material demo 50 51 ≠ material_of demo 51 :=
  ⟨by decide, by decide, by decide, by decide⟩

end ChessEngine

namespace ChessEngine

variable {B M : Type}

/-- C6: terminal scoring policy.  On a game-over position at depth > 0,
`minimax` returns `INF_SCORE + depth` for a checkmate won by White,
`-INF_SCORE - depth` for a checkmate won by Black, 0 for a stalemate or
other drawn terminal outcome (winner `none` or not a checkmate), and 0
defensively when `outcome()` yields nothing — and the result does not
depend on the legal-move enumeration at all (no moves are generated, no
recursion happens). -/
theorem C6_terminal_scoring (R : Rules B M) (b : B) (d : Nat) (alpha beta : Int) (mx : Bool)
    (hd : 1 ≤ d) (hg : R.is_game_over b = true) :
    (R.outcome b = none → minimaxVal R b d alpha beta mx = 0) ∧
    (∀ o, R.outcome b = some o → R.is_checkmate b = true → o.winner = some Color.white →
        minimaxVal R b d alpha beta mx = INF_SCORE + (d : Int)) ∧
    (∀ o, R.outcome b = some o → R.is_checkmate b = true → o.winner = some Color.black →
        minimaxVal R b d alpha beta mx = -INF_SCORE - (d : Int)) ∧
    (∀ o, R.outcome b = some o → R.is_checkmate b = false →
        minimaxVal R b d alpha beta mx = 0) ∧
    (∀ o, R.outcome b = some o → o.winner = none → minimaxVal R b d alpha beta mx = 0) ∧
    (∀ lm : B → List M, minimaxVal { R with legal_moves := lm } b d alpha beta mx =
        minimaxVal R b d alpha beta mx) := by
  obtain ⟨e, rfl⟩ : ∃ e, d = e + 1 := ⟨d - 1, by omega⟩
  have hval : minimaxVal R b (e + 1) alpha beta mx = terminal_score R b (e + 1) := by
    simp [minimaxVal, hg]
  refine ⟨?_, ?_, ?_, ?_, ?_, ?_⟩
  · intro h
    rw [hval]
    simp [terminal_score, h]
  · intro o ho hc hw
    rw [hval]
    simp [terminal_score, ho, hc, hw]
  · intro o ho hc hw
    rw [hval]
    simp [terminal_score, ho, hc, hw]
  · intro o ho hc
    rw [hval]
    simp [terminal_score, ho, hc]
  · intro o ho hw
    rw [hval]
    by_cases hc : R.is_checkmate b
    · simp [terminal_score, ho, hc, hw]
    · simp [terminal_score, ho, hc]
  · intro lm
    rw [hval]
    simp [minimaxVal, hg]
    rfl

/-- C6 witness: node 13 of the demo game is a checkmate won by White;
at depth 2 `minimax` scores it `INF_SCORE + 2`. -/
theorem C6_terminal_scoring_witness :
    ((1 : Nat) ≤ 2 ∧ demo.is_game_over 13 = true ∧ demo.outcome 13 = some ⟨some Color.white⟩ ∧
      demo.is_checkmate 13 = true) ∧
    minimaxVal demo 13 2 0 0 true = INF_SCORE + ((2 : Nat) : Int) :=
  ⟨by decide,
   (C6_terminal_scoring demo 13 2 0 0 true (by decide) (by decide)).2.1
     ⟨some Color.white⟩ (by decide) (by decide) (by decide)⟩

/-- C7 counterexample: a cutoff node whose returned value is NOT the
maximum of the child evaluations examined so far.  Node 70 (maximizing,
depth 3) searched with alpha = `INF_SCORE + 3`, beta = `INF_SCORE` — a
window that `find_best_move` produces after a faster mate was already
found at the root — examines only its first child (score
`-(INF_SCORE + 2)`), cuts off, and returns the initialization sentinel
`-INF_SCORE`, not the examined maximum `-(INF_SCORE + 2)`. -/
theorem C7_cutoff_returns_sentinel :
    minimaxValEx demo 70 3 (INF_SCORE + 3) INF_SCORE true = (-INF_SCORE, [-(INF_SCORE + 2)]) ∧
    (demo.legal_moves 70).length = 2 ∧
    (-INF_SCORE : Int) ≠ -(INF_SCORE + 2) :=
  ⟨by decide, by decide, by decide⟩

/-- C7 (amended): at every non-terminal node of positive depth —
in particular at every node where a cutoff triggers — the value
`minimax` returns is the fold of `max` (maximizing) or `min`
(minimizing) over the initialization sentinel `-INF_SCORE` resp.
`INF_SCORE` and the child evaluations examined so far; it is never a
bound clamped to the window, but it includes the sentinel, so it exceeds
the examined children's best exactly when all of them score beyond the
sentinel. -/
theorem C7_failsoft_amended (R : Rules B M) (b : B) (d : Nat) (alpha beta : Int)
    (hd : 1 ≤ d) (hg : R.is_game_over b = false) :
    ((minimaxValEx R b d alpha beta true).1 =
       ((minimaxValEx R b d alpha beta true).2).foldl max (-INF_SCORE)) ∧
    ((minimaxValEx R b d alpha beta false).1 =
       ((minimaxValEx R b d alpha beta false).2).foldl min INF_SCORE) ∧
    (∀ mx : Bool, (minimaxValEx R b d alpha beta mx).1 = minimaxVal R b d alpha beta mx) := by
  obtain ⟨e, rfl⟩ : ∃ e, d = e + 1 := ⟨d - 1, by omega⟩
  refine ⟨?_, ?_, fun mx => minimaxValEx_fst R b (e + 1) alpha beta mx⟩
  · simp only [minimaxValEx, hg, Bool.false_eq_true, if_false, if_true]
    exact valLoopMaxEx_fold R _ beta (R.legal_moves b) b (-INF_SCORE) alpha
  · simp only [minimaxValEx, hg, Bool.false_eq_true, if_false]
    exact valLoopMinEx_fold R _ alpha (R.legal_moves b) b INF_SCORE beta

/-- C7 witness: the amended fail-soft law applied at demo node 70,
depth 3, with the cutoff-producing window of the counterexample. -/
theorem C7_failsoft_amended_witness :
    ((1 : Nat) ≤ 3 ∧ demo.is_game_over 70 = false) ∧
    (minimaxValEx demo 70 3 (INF_SCORE + 3) INF_SCORE true).1 =
      ((minimaxValEx demo 70 3 (INF_SCORE + 3) INF_SCORE true).2).foldl max (-INF_SCORE) ∧
    (minimaxValEx demo 70 3 (INF_SCORE + 3) INF_SCORE true).1 =
      minimaxVal demo 70 3 (INF_SCORE + 3) INF_SCORE true :=
  ⟨by decide,
   (C7_failsoft_amended demo 70 3 (INF_SCORE + 3) INF_SCORE (by decide) (by decide)).1,
   (C7_failsoft_amended demo 70 3 (INF_SCORE + 3) INF_SCORE (by decide) (by decide)).2.2 true⟩

end ChessEngine

namespace ChessEngine

variable {B M : Type}

/-- C8: sentinel dominance.  For any boards whose piece counts are those
of a chess board (at most 64 squares, hence at most 64 pieces of any one
kind and colour), the magnitude of `evaluate_material` is strictly below
`INF_SCORE = 1000000`, so no material-only score can reach the mate
sentinel. -/
theorem C8_sentinel_dominates_material (R : Rules B M) (self_board board : B)
    (h : ∀ (pt : Piece) (c : Color), R.pieces_count self_board pt c ≤ 64) :
    |evaluate_material R self_board board| < INF_SCORE := by
  have hpw := h Piece.pawn Color.white
  have hpb := h Piece.pawn Color.black
  have hnw := h Piece.knight Color.white
  have hnb := h Piece.knight Color.black
  have hbw := h Piece.bishop Color.white
  have hbb := h Piece.bishop Color.black
  have hrw := h Piece.rook Color.white
  have hrb := h Piece.rook Color.black
  have hqw := h Piece.queen Color.white
  have hqb := h Piece.queen Color.black
  simp only [evaluate_material, pieceKinds, PIECE_VALUES, List.foldl, INF_SCORE]
  rw [abs_lt]
  constructor <;> omega

/-- C8 witness: the sentinel dominance applied at demo node 50 (one
white pawn). -/
theorem C8_sentinel_dominates_material_witness :
    |evaluate_material demo 50 50| < INF_SCORE :=
  C8_sentinel_dominates_material demo 50 50
    (by intro pt c; cases pt <;> cases c <;> decide)

/-- C9 counterexample: the claim says interior values lie in the closed
interval [-INF_SCORE, INF_SCORE].  Node 80 of the demo game is not game
over, has a legal move, and at depth 2 the maximizing search returns
`INF_SCORE + 1` — an immediate-mate child's score passes a maximizing
node unflattened, above the claimed interval. -/
theorem C9_score_exceeds_sentinel :
    demo.is_game_over 80 = false ∧
    demo.legal_moves 80 ≠ [] ∧
    minimaxVal demo 80 2 (-INF_SCORE) INF_SCORE true = INF_SCORE + 1 ∧
    ¬ (minimaxVal demo 80 2 (-INF_SCORE) INF_SCORE true ≤ INF_SCORE) :=
  ⟨by decide, by decide, by decide, by decide⟩

/-- C9 (amended): the initialization of the running best gives only
one-sided bounds at interior nodes: a maximizing node never returns
below `-INF_SCORE` and a minimizing node never returns above
`INF_SCORE`.  Consequently mate scores of the side OPPOSED to the node
are flattened, in both directions: a minimizing node all of whose
children score at least `INF_SCORE` returns exactly `INF_SCORE`, and a
maximizing node all of whose children score at most `-INF_SCORE`
returns exactly `-INF_SCORE`, while mate scores of the node's own side
pass through unflattened. -/
theorem C9_interior_bounds (R : Rules B M) (b : B) (d : Nat) (alpha beta : Int)
    (hd : 1 ≤ d) (hg : R.is_game_over b = false) (hm : R.legal_moves b ≠ []) :
    (-INF_SCORE ≤ minimaxVal R b d alpha beta true) ∧
    (minimaxVal R b d alpha beta false ≤ INF_SCORE) ∧
    ((∀ m ∈ R.legal_moves b, ∀ a2 b2 : Int,
        INF_SCORE ≤ minimaxVal R (R.push b m) (d - 1) a2 b2 true) →
      minimaxVal R b d alpha beta false = INF_SCORE) ∧
    ((∀ m ∈ R.legal_moves b, ∀ a2 b2 : Int,
        minimaxVal R (R.push b m) (d - 1) a2 b2 false ≤ -INF_SCORE) →
      minimaxVal R b d alpha beta true = -INF_SCORE) := by
  obtain ⟨e, rfl⟩ : ∃ e, d = e + 1 := ⟨d - 1, by omega⟩
  refine ⟨minimaxVal_max_ge R b e alpha beta hg, minimaxVal_min_le R b e alpha beta hg, ?_, ?_⟩
  · intro hall
    simp only [minimaxVal, hg, Bool.false_eq_true, if_false]
    exact valLoopMin_flat R _ alpha (R.legal_moves b) b beta
      (fun m hm2 bt2 => hall m hm2 alpha bt2)
  · intro hall
    simp only [minimaxVal, hg, Bool.false_eq_true, if_false, if_true]
    exact valLoopMax_flat R _ beta (R.legal_moves b) b alpha
      (fun m hm2 a2 => hall m hm2 a2 beta)

/-- C9 witness: the one-sided bounds and both flattenings applied at
depth 2 with the full window — node 80 is a minimizing interior node
whose only child (81) is a terminal White mate scoring
`INF_SCORE + 1 ≥ INF_SCORE` under every window, so it flattens to
exactly `INF_SCORE`; node 41 is a maximizing interior node whose only
child (42) is a terminal Black mate scoring
`-INF_SCORE - 1 ≤ -INF_SCORE` under every window, so it flattens to
exactly `-INF_SCORE`. -/
theorem C9_interior_bounds_witness :
    ((1 : Nat) ≤ 2 ∧ demo.is_game_over 80 = false ∧ demo.legal_moves 80 ≠ [] ∧
      demo.is_game_over 41 = false ∧ demo.legal_moves 41 ≠ []) ∧
    (-INF_SCORE ≤ minimaxVal demo 80 2 (-INF_SCORE) INF_SCORE true) ∧
    (minimaxVal demo 80 2 (-INF_SCORE) INF_SCORE false ≤ INF_SCORE) ∧
    minimaxVal demo 80 2 (-INF_SCORE) INF_SCORE false = INF_SCORE ∧
    minimaxVal demo 41 2 (-INF_SCORE) INF_SCORE true = -INF_SCORE :=
  ⟨by decide,
   (C9_interior_bounds demo 80 2 (-INF_SCORE) INF_SCORE (by decide) (by decide) (by decide)).1,
   (C9_interior_bounds demo 80 2 (-INF_SCORE) INF_SCORE (by decide) (by decide) (by decide)).2.1,
   (C9_interior_bounds demo 80 2 (-INF_SCORE) INF_SCORE (by decide) (by decide) (by decide)).2.2.1
     (by
       intro m hm a2 b2
       have he : demo.legal_moves 80 = [81] := rfl
       rw [he] at hm
       simp only [List.mem_singleton] at hm
       subst hm
       have h81 : minimaxVal demo (demo.push 80 81) (2 - 1) a2 b2 true = INF_SCORE + 1 := rfl
       rw [h81]
       omega),
   (C9_interior_bounds demo 41 2 (-INF_SCORE) INF_SCORE (by decide) (by decide) (by decide)).2.2.2
     (by
       intro m hm a2 b2
       have he : demo.legal_moves 41 = [42] := rfl
       rw [he] at hm
       simp only [List.mem_singleton] at hm
       subst hm
       have h42 : minimaxVal demo (demo.push 41 42) (2 - 1) a2 b2 false = -INF_SCORE - 1 := rfl
       rw [h42]
       omega)⟩

/-- C10: termination.  `minimax` is total on every board, depth, window
and side: in this development it is defined by structural recursion on
`depth` — its defining equations below show that `depth = 0` is an
unconditional base case (the game-over check is not even reached) and
that every recursive call in the `depth + 1` step is made at depth `d`,
so the recursion is well-founded on the depth. -/
theorem C10_termination (R : Rules B M) :
    (∀ (s : BoardSt B) (alpha beta : Int) (mx : Bool),
       minimax R s 0 alpha beta mx = (evaluate_material R s.pos s.pos, s)) ∧
    (∀ (s : BoardSt B) (d : Nat) (alpha beta : Int) (mx : Bool),
       minimax R s (d + 1) alpha beta mx =
         if R.is_game_over s.pos then (terminal_score R s.pos (d + 1), s)
         else if mx then
           minimaxLoopMax R (fun s2 a => minimax R s2 d a beta false) beta
             (R.legal_moves s.pos) s (-INF_SCORE) alpha
         else
           minimaxLoopMin R (fun s2 bt => minimax R s2 d alpha bt true) alpha
             (R.legal_moves s.pos) s INF_SCORE beta) :=
  ⟨fun s alpha beta mx => rfl, fun s d alpha beta mx => rfl⟩

end ChessEngine
